import Mathlib

/-!
Verification model of `dwh_migration_client/macro_expander.py`.

The Python module defines two classes:

* `MacroExpander` — expands macro references (matches of a compiled regular
  expression with one capture group) in a text, keeping per-file reverse
  bookkeeping so the substitution can later be undone by `un_expand`.
* `MacroExpanderRouter` — dispatches a file name to one of several
  `MacroExpander`s by glob (`fnmatch`) patterns.

The embedding below is a direct translation:

* Python `dict`s become insertion-ordered association lists (`alistGet`,
  `alistSet` model `d[k]` lookup and `d[k] = v` assignment);
* Python `set`s become duplicate-free lists; `set.pop()` removes the head
  (Python's pop returns an arbitrary element; claims only need "some
  element");
* a compiled pattern is represented by its match decomposition: a function
  from the character list to the alternating literal / match `Chunk` list
  that `re.sub` walks.  `tokenize` is that decomposition for the concrete
  default pattern of the repository; `re.sub` itself is `expandChunks`;
* `re.subn(re.escape(lit), rep, text)` — replacing every occurrence of a
  fixed string — is `replaceAll`; the variant compiled with the `re.I`
  flag is `replaceAllCI` (both sides compared lower-cased);
* `fnmatch.fnmatch` is modelled for the glob features `*`, `?` and
  literal characters (the ones the routing patterns use);
* runtime exceptions become `Except PyError`; logged warnings become
  an explicit `List Warning` component of each result.
-/

namespace MacroModel

/-- Lookup in an insertion-ordered association list (Python `d[k]` / `k in d`). -/
def alistGet {β : Type} (k : String) : List (String × β) → Option β
  | [] => none
  | (k', v) :: t => if k = k' then some v else alistGet k t

/-- Assignment `d[k] = v` on an insertion-ordered association list: an existing
key keeps its position, a new key is appended at the end. -/
def alistSet {β : Type} (k : String) (v : β) : List (String × β) → List (String × β)
  | [] => [(k, v)]
  | (k', v') :: t => if k = k' then (k, v) :: t else (k', v') :: alistSet k v t

/-- Python `s.union({x})` on a set modelled as a duplicate-free list. -/
def setAdd (x : String) (s : List String) : List String :=
  if x ∈ s then s else s ++ [x]

/-- The opening brace character (written by code point to keep it out of
character-literal position). -/
def lbrace : Char := Char.ofNat 123

/-- The closing brace character. -/
def rbrace : Char := Char.ofNat 125

/-- A character of the regex class backslash-w (ASCII reading, which is all the
repository's inputs use). -/
def isWordChar (c : Char) : Bool := c.isAlpha || c.isDigit || c = '_'

/-- Does `p` occur at the very start of `s`? (exact characters). -/
def startsWith : List Char → List Char → Bool
  | [], _ => true
  | _ :: _, [] => false
  | c :: p, d :: s => c = d && startsWith p s

/-- Does `p` occur at the very start of `s`, comparing case-insensitively
(the effect of compiling the literal pattern with `re.I`)? -/
def startsWithCI : List Char → List Char → Bool
  | [], _ => true
  | _ :: _, [] => false
  | c :: p, d :: s => (c.toLower = d.toLower) && startsWithCI p s

/-- Does `p` occur somewhere in `s` as a contiguous substring? -/
def occurs (p : List Char) : List Char → Bool
  | [] => startsWith p []
  | c :: t => startsWith p (c :: t) || occurs p t

/-- `re.sub` with an empty literal pattern: the empty match is found at every
position, so the replacement is inserted before every character and at the
end. -/
def replaceEmpty (rep : List Char) : List Char → List Char
  | [] => rep
  | c :: t => rep ++ c :: replaceEmpty rep t

/-- Left-to-right non-overlapping replacement of the non-empty literal `pat`
by `rep`.  The fuel argument only bounds the recursion; `fuel = s.length`
is always enough because every step consumes at least one character. -/
def replaceAllAux (pat rep : List Char) : Nat → List Char → List Char
  | _, [] => []
  | 0, s => s
  | fuel + 1, c :: t =>
    if startsWith pat (c :: t) then
      rep ++ replaceAllAux pat rep fuel (List.drop pat.length (c :: t))
    else
      c :: replaceAllAux pat rep fuel t

/-- `re.subn(re.escape(pat), rep, s)`: replace every occurrence of the fixed
string `pat` in `s` by `rep`, scanning left to right, non-overlapping. -/
def replaceAll (pat rep s : List Char) : List Char :=
  match pat with
  | [] => replaceEmpty rep s
  | _ :: _ => replaceAllAux pat rep s.length s

/-- Case-insensitive variant of `replaceAllAux` (the `flags=re.I` call). -/
def replaceAllCIAux (pat rep : List Char) : Nat → List Char → List Char
  | _, [] => []
  | 0, s => s
  | fuel + 1, c :: t =>
    if startsWithCI pat (c :: t) then
      rep ++ replaceAllCIAux pat rep fuel (List.drop pat.length (c :: t))
    else
      c :: replaceAllCIAux pat rep fuel t

/-- `re.subn(re.escape(pat), rep, s, flags=re.I)`: replace every
case-insensitive occurrence of the fixed string `pat` in `s` by `rep`. -/
def replaceAllCI (pat rep s : List Char) : List Char :=
  match pat with
  | [] => replaceEmpty rep s
  | _ :: _ => replaceAllCIAux pat rep s.length s

/-- One element of the match decomposition `re.sub` walks: either a literal
character between matches, or one match carrying the full matched text and
the text of the single capture group. -/
inductive Chunk : Type where
  | lit : Char → Chunk
  | mac : String → String → Chunk
  deriving DecidableEq, Repr

/-- The text the chunk list came from. -/
def renderChunks : List Chunk → List Char
  | [] => []
  | Chunk.lit c :: t => c :: renderChunks t
  | Chunk.mac full _ :: t => full.data ++ renderChunks t

/-- Longest word-character run at the head of the list. -/
def takeWord : List Char → List Char
  | [] => []
  | c :: t => if isWordChar c then c :: takeWord t else []

/-- What remains after `takeWord`. -/
def dropWord : List Char → List Char
  | [] => []
  | c :: t => if isWordChar c then dropWord t else c :: t

/-- The full matched text of the repository's default macro pattern for a
captured name `w`: a dollar, an opening brace, the name, a closing brace. -/
def mkFull (w : List Char) : String :=
  String.mk ('$' :: lbrace :: (w ++ [rbrace]))

/-- Match decomposition of the repository's default pattern (dollar, opening
brace, one-or-more word characters as the capture group, closing brace;
the `re.I` flag is irrelevant to it) on a character list, scanning left to
right the way the regex engine does: at each position either the pattern
matches (consuming the whole match) or the scan advances one character.
`fuel = s.length` is always enough: every step consumes at least one
character. -/
def tokenizeAux : Nat → List Char → List Chunk
  | _, [] => []
  | 0, s => s.map Chunk.lit
  | fuel + 1, c :: rest =>
    if c = '$' then
      match rest with
      | [] => [Chunk.lit c]
      | b :: rest2 =>
        if b = lbrace then
          match takeWord rest2, dropWord rest2 with
          | _ :: _, cb :: rest4 =>
            if cb = rbrace then
              Chunk.mac (mkFull (takeWord rest2)) (String.mk (takeWord rest2))
                :: tokenizeAux fuel rest4
            else Chunk.lit c :: tokenizeAux fuel rest
          | _, _ => Chunk.lit c :: tokenizeAux fuel rest
        else Chunk.lit c :: tokenizeAux fuel rest
    else Chunk.lit c :: tokenizeAux fuel rest

/-- Match decomposition of the default pattern on a character list. -/
def tokenize (s : List Char) : List Chunk := tokenizeAux s.length s

/-- `fnmatch.fnmatch` for glob patterns built from `*`, `?` and literal
characters (the features the repository's routing patterns use); POSIX
case normalisation is the identity, so matching is case-sensitive.
The fuel only bounds recursion; `pat.length + s.length + 1` is enough
because every step shrinks the pattern or the string. -/
def fnmatchAux : Nat → List Char → List Char → Bool
  | 0, _, _ => false
  | _ + 1, [], s => s.isEmpty
  | fuel + 1, c :: p, s =>
    if c = '*' then
      fnmatchAux fuel p s ||
        (match s with
         | [] => false
         | _ :: t => fnmatchAux fuel (c :: p) t)
    else
      match s with
      | [] => false
      | d :: t => (c = '?' || c = d) && fnmatchAux fuel p t

/-- Glob match of a file name against a routing pattern. -/
def fnmatch (pat s : List Char) : Bool := fnmatchAux (pat.length + s.length + 1) pat s

/-- A warning the Python code sends to the logger. -/
inductive Warning : Type where
  | cannotExpand : String → Warning
  | ambiguous : String → List String → Warning
  deriving DecidableEq, Repr

/-- A Python runtime exception the code can raise: `NameError` (an undefined
identifier was evaluated) or `KeyError` (here: `set.pop()` on an empty set). -/
inductive PyError : Type where
  | nameError : String → PyError
  | keyError : PyError
  deriving DecidableEq, Repr

/-- State and configuration of one `MacroExpander` instance.  `pattern` is the
compiled regular expression, represented by its match decomposition;
`reverse` is `file name -> [generated value -> (count, originals set)]`;
`unmapped` is `file name -> set of macro names`; the set of originals and
the set of names are duplicate-free lists. -/
structure MacroExpander : Type where
  pattern : List Char → List Chunk
  mapping : Option (List (String × String))
  generator : Option (String → String → String)
  un_generator : Option (String → String → String → String)
  reverse : List (String × List (String × (Nat × List String)))
  unmapped : List (String × List String)

/-- The `reverse[file_name]` update at the end of `_substitution`: make sure
the per-file dict exists, then either bump the count and union in the full
match for an existing generated value, or insert `(1, {full})`. -/
def bumpReverse (rev : List (String × (Nat × List String))) (generated full : String) :
    List (String × (Nat × List String)) :=
  match alistGet generated rev with
  | some (cnt, origs) => alistSet generated (cnt + 1, setAdd full origs) rev
  | none => rev ++ [(generated, (1, [full]))]

/-- `MacroExpander._substitution` up to (not including) the reverse-index
update: resolve the captured name to a generated value, possibly touching
`unmapped` and possibly emitting a warning.  Mirrors the source exactly:

* `if self.mapping and macro_name in self.mapping` — the mapping is present,
  non-empty and contains the name (an empty dict is falsy and can contain
  nothing, so this is exactly "lookup succeeds");
* `elif self.generator` — when the file already has an `unmapped` entry the
  code evaluates `self.unmapped[file_name].union(macro_name)` and discards
  the result (`set.union` returns a new set), so the state is unchanged;
  otherwise `unmapped[file_name] = {macro_name}`;
* `else` — warn and use the full matched text. -/
def resolveValue (st : MacroExpander) (file name full : String) :
    String × MacroExpander × List Warning :=
  match st.mapping.bind (alistGet name) with
  | some v => (v, st, [])
  | none =>
    match st.generator with
    | some g =>
      let st' :=
        match alistGet file st.unmapped with
        | some _ => st
        | none => { st with unmapped := alistSet file [name] st.unmapped }
      (g file name, st', [])
    | none => (full, st, [Warning.cannotExpand full])

/-- `MacroExpander._substitution`: resolve the value, record it in the
reverse index, return it (the value `re.sub` splices into the output). -/
def substitution (st : MacroExpander) (file name full : String) :
    String × MacroExpander × List Warning :=
  let r := resolveValue st file name full
  let generated := r.1
  let st1 := r.2.1
  let rev := (alistGet file st1.reverse).getD []
  (generated,
   { st1 with reverse := alistSet file (bumpReverse rev generated full) st1.reverse },
   r.2.2)

/-- `re.sub(pattern, repl, text)` given the match decomposition of `text`:
walk the chunks left to right, copying literals and splicing in the value
`_substitution` returns for each match, threading the mutated state. -/
def expandChunks (st : MacroExpander) (file : String) :
    List Chunk → String × MacroExpander × List Warning
  | [] => ("", st, [])
  | Chunk.lit c :: rest =>
    let r := expandChunks st file rest
    (String.mk [c] ++ r.1, r.2)
  | Chunk.mac full name :: rest =>
    let s := substitution st file name full
    let r := expandChunks s.2.1 file rest
    (s.1 ++ r.1, r.2.1, s.2.2 ++ r.2.2)

/-- `MacroExpander.expand`. -/
def MacroExpander.expand (st : MacroExpander) (file text : String) :
    String × MacroExpander × List Warning :=
  expandChunks st file (st.pattern text.data)

/-- `MacroExpander._sanity_check`: one warning per reverse-index entry whose
originals set has more than one element. -/
def sanity_check : List (String × (Nat × List String)) → List Warning
  | [] => []
  | (g, (_, origs)) :: rest =>
    (if 1 < origs.length then [Warning.ambiguous g origs] else []) ++ sanity_check rest

/-- The loop body of `MacroExpander.un_expand`: for each reverse-index entry
in order, `original[1].pop()` one original (KeyError when the set is
empty), then replace every occurrence of the generated value in the
running text — case-insensitively via the un-generator's result when one
is configured (`flags=re.I`), otherwise by the popped original with no
flags (exact case).  Returns the final text and the entries with their
popped originals removed (the pop mutates the set stored in the index). -/
def popEntries (ug : Option (String → String → String → String)) (file : String)
    (text : String) :
    List (String × (Nat × List String)) →
      Except PyError (String × List (String × (Nat × List String)))
  | [] => Except.ok (text, [])
  | (g, (cnt, origs)) :: rest =>
    match origs with
    | [] => Except.error PyError.keyError
    | o :: os =>
      let newText :=
        match ug with
        | some f => String.mk (replaceAllCI g.data (f file g o).data text.data)
        | none => String.mk (replaceAll g.data o.data text.data)
      match popEntries ug file newText rest with
      | Except.error e => Except.error e
      | Except.ok (t, rest') => Except.ok (t, (g, (cnt, os)) :: rest')

/-- `MacroExpander.un_expand`: a no-op when the file has no reverse-index
entry; otherwise run the sanity check, then the replacement loop.  (The
`if False:` occurrence-count check in the source is dead code.) -/
def MacroExpander.un_expand (st : MacroExpander) (file text : String) :
    List Warning × Except PyError (String × MacroExpander) :=
  match alistGet file st.reverse with
  | none => ([], Except.ok (text, st))
  | some entries =>
    match popEntries st.un_generator file text entries with
    | Except.error e => (sanity_check entries, Except.error e)
    | Except.ok (t, entries') =>
      (sanity_check entries,
       Except.ok (t, { st with reverse := alistSet file entries' st.reverse }))

/-- `MacroExpanderRouter` state: the ordered `all_macros` dict of glob
pattern to expander. -/
structure MacroExpanderRouter : Type where
  all_macros : List (String × MacroExpander)

/-- The matches collected by the loop in `choose_expander`: every
`(pattern, expander)` entry whose pattern glob-matches the file name. -/
def chooseHits (r : MacroExpanderRouter) (file : String) :
    List (String × MacroExpander) :=
  r.all_macros.filter (fun pe => fnmatch pe.1.data file.data)

/-- `MacroExpanderRouter.choose_expander`: no match returns `None`; a unique
match returns its expander; more than one match evaluates `loggin.warn`,
an undefined identifier, so the call raises `NameError` before it can
return the last-matching expander. -/
def choose_expander (r : MacroExpanderRouter) (file : String) :
    Except PyError (Option MacroExpander) :=
  match chooseHits r file with
  | [] => Except.ok none
  | [pe] => Except.ok (some pe.2)
  | _ :: _ :: _ => Except.error (PyError.nameError "loggin")

/-- `MacroExpanderRouter.expand`: route, then run the chosen expander's
`expand`, storing the expander's mutated state back under its pattern;
pass the text through untouched when no pattern matches; propagate the
`NameError` from `choose_expander` when several match. -/
def MacroExpanderRouter.expand (r : MacroExpanderRouter) (file text : String) :
    List Warning × Except PyError (String × MacroExpanderRouter) :=
  match chooseHits r file with
  | [] => ([], Except.ok (text, r))
  | [pe] =>
    let e := pe.2.expand file text
    (e.2.2,
     Except.ok (e.1,
       ⟨r.all_macros.map (fun q => if q.1 = pe.1 then (q.1, e.2.1) else q)⟩))
  | _ :: _ :: _ => ([], Except.error (PyError.nameError "loggin"))

/-- `MacroExpanderRouter.un_expand`: route, then run the chosen expander's
`un_expand`; pass the text through untouched when no pattern matches. -/
def MacroExpanderRouter.un_expand (r : MacroExpanderRouter) (file text : String) :
    List Warning × Except PyError (String × MacroExpanderRouter) :=
  match chooseHits r file with
  | [] => ([], Except.ok (text, r))
  | [pe] =>
    let e := pe.2.un_expand file text
    match e.2 with
    | Except.error er => (e.1, Except.error er)
    | Except.ok (t, st') =>
      (e.1,
       Except.ok (t,
         ⟨r.all_macros.map (fun q => if q.1 = pe.1 then (q.1, st') else q)⟩))
  | _ :: _ :: _ => ([], Except.error (PyError.nameError "loggin"))

/-- The per-file slice of the reverse index (empty when the file has none). -/
def entriesFor (st : MacroExpander) (f : String) : List (String × (Nat × List String)) :=
  (alistGet f st.reverse).getD []

/-- A fresh expander with the default pattern, the static mapping
`foo -> BAR`, and no generator or un-generator. -/
def stdExpander : MacroExpander :=
  { pattern := tokenize, mapping := some [("foo", "BAR")], generator := none,
    un_generator := none, reverse := [], unmapped := [] }

/-- A fresh expander with no static mapping and a generator that prefixes
the macro name with `V`. -/
def genExpander : MacroExpander :=
  { pattern := tokenize, mapping := none,
    generator := some (fun _ n => "V" ++ n),
    un_generator := none, reverse := [], unmapped := [] }

/-- A fresh expander with neither a static mapping nor a generator. -/
def bareExpander : MacroExpander :=
  { pattern := tokenize, mapping := none, generator := none,
    un_generator := none, reverse := [], unmapped := [] }

/-- A fresh expander whose static mapping sends two distinct macro names to
the same replacement value (the ambiguous-reversal scenario). -/
def aliasExpander : MacroExpander :=
  { pattern := tokenize, mapping := some [("a", "BAR"), ("b", "BAR")],
    generator := none, un_generator := none, reverse := [], unmapped := [] }

/-- An expander with an un-generator (returning the original unchanged) and a
reverse index already holding one expansion of `BAR` from one original. -/
def ugExpander : MacroExpander :=
  { pattern := tokenize, mapping := some [("foo", "BAR")], generator := none,
    un_generator := some (fun _ _ o => o),
    reverse := [("f", [("BAR", (1, ["${foo}"]))])], unmapped := [] }

/-- A router with two overlapping glob patterns, both matching `a.sql`. -/
def demoRouter : MacroExpanderRouter :=
  ⟨[("*.sql", stdExpander), ("a.*", bareExpander)]⟩

/-- A router with a single registered pattern. -/
def soloRouter : MacroExpanderRouter := ⟨[("*.sql", stdExpander)]⟩

/-! Section: Association-list lemmas -/

theorem alistGet_set_self {β : Type} (k : String) (v : β) (l : List (String × β)) :
    alistGet k (alistSet k v l) = some v := by
  induction l with
  | nil => simp [alistSet, alistGet]
  | cons e t ih =>
    obtain ⟨k', v'⟩ := e
    by_cases h : k = k' <;> simp [alistSet, alistGet, h, ih]

theorem mem_alistSet {β : Type} {k : String} {v : β} {l : List (String × β)}
    {e : String × β} (he : e ∈ alistSet k v l) : e = (k, v) ∨ e ∈ l := by
  induction l with
  | nil => simpa [alistSet] using he
  | cons p t ih =>
    obtain ⟨k', v'⟩ := p
    by_cases h : k = k'
    · rw [alistSet, if_pos h] at he
      rcases List.mem_cons.mp he with h1 | h2
      · exact Or.inl h1
      · exact Or.inr (List.mem_cons_of_mem _ h2)
    · rw [alistSet, if_neg h] at he
      rcases List.mem_cons.mp he with h1 | h2
      · exact Or.inr (h1 ▸ List.mem_cons_self _ _)
      · rcases ih h2 with h3 | h4
        · exact Or.inl h3
        · exact Or.inr (List.mem_cons_of_mem _ h4)

theorem mem_alistSet_of_ne {β : Type} {k : String} {v : β} {l : List (String × β)}
    {e : String × β} (he : e ∈ l) (hne : e.1 ≠ k) : e ∈ alistSet k v l := by
  induction l with
  | nil => cases he
  | cons p t ih =>
    obtain ⟨k', v'⟩ := p
    by_cases h : k = k'
    · rw [alistSet, if_pos h]
      rcases List.mem_cons.mp he with h1 | h2
      · exact absurd (h ▸ congrArg Prod.fst h1) hne
      · exact List.mem_cons_of_mem _ h2
    · rw [alistSet, if_neg h]
      rcases List.mem_cons.mp he with h1 | h2
      · exact h1 ▸ List.mem_cons_self _ _
      · exact List.mem_cons_of_mem _ (ih h2)

theorem alistGet_mem {β : Type} {k : String} {v : β} {l : List (String × β)}
    (h : alistGet k l = some v) : (k, v) ∈ l := by
  induction l with
  | nil => simp [alistGet] at h
  | cons p t ih =>
    obtain ⟨k', v'⟩ := p
    by_cases hk : k = k'
    · rw [alistGet, if_pos hk] at h
      subst hk
      injection h with hv
      subst hv
      exact List.mem_cons_self _ _
    · rw [alistGet, if_neg hk] at h
      exact List.mem_cons_of_mem _ (ih h)

theorem self_mem_alistSet {β : Type} (k : String) (v : β) (l : List (String × β)) :
    (k, v) ∈ alistSet k v l :=
  alistGet_mem (alistGet_set_self k v l)

/-! Section: Tokeniser round-trip -/

theorem takeWord_append_dropWord (l : List Char) : takeWord l ++ dropWord l = l := by
  induction l with
  | nil => rfl
  | cons c t ih =>
    by_cases h : isWordChar c = true <;> simp [takeWord, dropWord, h, ih]

theorem renderChunks_map_lit (s : List Char) : renderChunks (s.map Chunk.lit) = s := by
  induction s with
  | nil => rfl
  | cons c t ih => simp [renderChunks, ih]

theorem renderChunks_tokenizeAux : ∀ (fuel : Nat) (s : List Char),
    renderChunks (tokenizeAux fuel s) = s := by
  intro fuel
  induction fuel with
  | zero =>
    intro s
    cases s with
    | nil => rfl
    | cons c t => simpa [tokenizeAux] using renderChunks_map_lit (c :: t)
  | succ fuel ih =>
    intro s
    cases s with
    | nil => rfl
    | cons c rest =>
      by_cases hc : c = '$'
      · subst hc
        cases rest with
        | nil => simp [tokenizeAux, renderChunks]
        | cons b rest2 =>
          by_cases hb : b = lbrace
          · subst hb
            have hsplit := takeWord_append_dropWord rest2
            cases htw : takeWord rest2 with
            | nil => simp [tokenizeAux, htw, renderChunks, ih]
            | cons w0 ws =>
              cases hdw : dropWord rest2 with
              | nil => simp [tokenizeAux, htw, hdw, renderChunks, ih]
              | cons cb rest4 =>
                by_cases hcb : cb = rbrace
                · subst hcb
                  rw [htw, hdw] at hsplit
                  simp only [tokenizeAux, htw, hdw, if_pos rfl, renderChunks, ih, mkFull]
                  simpa using hsplit
                · simp [tokenizeAux, htw, hdw, hcb, renderChunks, ih]
          · simp [tokenizeAux, hb, renderChunks, ih]
      · simp [tokenizeAux, hc, renderChunks, ih]

theorem renderChunks_tokenize (s : List Char) : renderChunks (tokenize s) = s :=
  renderChunks_tokenizeAux s.length s

/-! Section: Occurrences after literal replacement

The goal of this block: after `replaceAll p r s`, the pattern `p` no longer
occurs, provided `p` and `r` are non-empty and share no characters (then no
occurrence of `p` can straddle an inserted copy of `r`, and the scanner has
visited every position of a literal run). -/

theorem startsWith_nil_right (p : List Char) :
    startsWith p [] = true ↔ p = [] := by
  cases p <;> simp [startsWith]

theorem occurs_append_of_disjoint (p a b : List Char) (hp : p ≠ [])
    (hd : ∀ c ∈ a, c ∉ p) : occurs p (a ++ b) = occurs p b := by
  induction a with
  | nil => rfl
  | cons x a ih =>
    have hx : x ∉ p := hd x (List.mem_cons_self _ _)
    have hd' : ∀ c ∈ a, c ∉ p := fun c hc => hd c (List.mem_cons_of_mem _ hc)
    have hsw : startsWith p (x :: (a ++ b)) = false := by
      cases p with
      | nil => exact absurd rfl hp
      | cons y q =>
        by_cases hyx : y = x
        · exact absurd (hyx ▸ List.mem_cons_self y q) hx
        · simp [startsWith, hyx]
    simp [occurs, hsw, ih hd']

theorem startsWith_transfer (p r : List Char) (hr : r ≠ [])
    (hd : ∀ c ∈ r, c ∉ p) :
    ∀ (fuel : Nat) (t q : List Char), (∀ c ∈ q, c ∈ p) →
      startsWith q (replaceAllAux p r fuel t) = true → startsWith q t = true := by
  intro fuel
  induction fuel with
  | zero =>
    intro t q _ h
    cases t <;> simpa [replaceAllAux] using h
  | succ fuel ih =>
    intro t q hq h
    cases t with
    | nil => simpa [replaceAllAux] using h
    | cons c t' =>
      by_cases hm : startsWith p (c :: t') = true
      · rw [replaceAllAux, if_pos hm] at h
        cases q with
        | nil => simp [startsWith]
        | cons x q' =>
          cases r with
          | nil => exact absurd rfl hr
          | cons rc r' =>
            have hx : x = rc := by
              simpa [startsWith] using And.left (by simpa [startsWith] using h)
            have hrc : rc ∉ p := hd rc (List.mem_cons_self _ _)
            have hxp : x ∈ p := hq x (List.mem_cons_self _ _)
            exact absurd (hx ▸ hxp) hrc
      · rw [replaceAllAux, if_neg hm] at h
        cases q with
        | nil => simp [startsWith]
        | cons x q' =>
          have h' : x = c ∧ startsWith q' (replaceAllAux p r fuel t') = true := by
            simpa [startsWith] using h
          have hq' : ∀ ch ∈ q', ch ∈ p := fun ch hc => hq ch (List.mem_cons_of_mem _ hc)
          have := ih t' q' hq' h'.2
          simp [startsWith, h'.1, this]

theorem occurs_replaceAllAux (p r : List Char) (hp : p ≠ []) (hr : r ≠ [])
    (hd : ∀ c ∈ r, c ∉ p) :
    ∀ (fuel : Nat) (s : List Char), s.length ≤ fuel →
      occurs p (replaceAllAux p r fuel s) = false := by
  intro fuel
  induction fuel with
  | zero =>
    intro s hs
    have : s = [] := List.eq_nil_of_length_eq_zero (Nat.le_zero.mp hs)
    subst this
    cases p with
    | nil => exact absurd rfl hp
    | cons y q => simp [replaceAllAux, occurs, startsWith]
  | succ fuel ih =>
    intro s hs
    cases s with
    | nil =>
      cases p with
      | nil => exact absurd rfl hp
      | cons y q => simp [replaceAllAux, occurs, startsWith]
    | cons c t =>
      by_cases hm : startsWith p (c :: t) = true
      · rw [replaceAllAux, if_pos hm]
        rw [occurs_append_of_disjoint p r _ hp hd]
        apply ih
        have hp1 : 1 ≤ p.length := by
          cases p with
          | nil => exact absurd rfl hp
          | cons _ _ => simp
        rw [List.length_drop]
        simp only [List.length_cons] at hs ⊢
        omega
      · rw [replaceAllAux, if_neg hm]
        have h2 : occurs p (replaceAllAux p r fuel t) = false := by
          apply ih
          simp only [List.length_cons] at hs
          omega
        have h1 : startsWith p (c :: replaceAllAux p r fuel t) = false := by
          cases hsw : startsWith p (c :: replaceAllAux p r fuel t) with
          | false => rfl
          | true =>
            exfalso
            cases p with
            | nil => exact hp rfl
            | cons y q =>
              have h' : y = c ∧ startsWith q (replaceAllAux (y :: q) r fuel t) = true := by
                simpa [startsWith] using hsw
              have hq : ∀ ch ∈ q, ch ∈ y :: q :=
                fun ch hc => List.mem_cons_of_mem _ hc
              have ht := startsWith_transfer (y :: q) r hr hd fuel t q hq h'.2
              have hcon : startsWith (y :: q) (c :: t) = true := by
                simp [startsWith, h'.1, ht]
              exact absurd hcon (by simpa using hm)
        simp [occurs, h1, h2]

theorem occurs_replaceAll (p r s : List Char) (hp : p ≠ []) (hr : r ≠ [])
    (hd : ∀ c ∈ r, c ∉ p) : occurs p (replaceAll p r s) = false := by
  cases p with
  | nil => exact absurd rfl hp
  | cons y q =>
    simp only [replaceAll]
    exact occurs_replaceAllAux (y :: q) r hp hr hd s.length s (Nat.le_refl _)

/-! Section: Structural facts about `_substitution` -/

theorem resolveValue_preserves (st : MacroExpander) (f n fu : String) :
    (resolveValue st f n fu).2.1.pattern = st.pattern ∧
    (resolveValue st f n fu).2.1.mapping = st.mapping ∧
    (resolveValue st f n fu).2.1.generator = st.generator ∧
    (resolveValue st f n fu).2.1.un_generator = st.un_generator ∧
    (resolveValue st f n fu).2.1.reverse = st.reverse := by
  unfold resolveValue
  repeat' split <;> simp

theorem substitution_fields (st : MacroExpander) (f n fu : String) :
    (substitution st f n fu).2.1.pattern = st.pattern ∧
    (substitution st f n fu).2.1.mapping = st.mapping ∧
    (substitution st f n fu).2.1.generator = st.generator ∧
    (substitution st f n fu).2.1.un_generator = st.un_generator := by
  have h := resolveValue_preserves st f n fu
  exact ⟨h.1, h.2.1, h.2.2.1, h.2.2.2.1⟩

theorem substitution_val (st : MacroExpander) (f n fu : String) :
    (substitution st f n fu).1 = (resolveValue st f n fu).1 := rfl

theorem substitution_entriesFor (st : MacroExpander) (f n fu : String) :
    entriesFor (substitution st f n fu).2.1 f =
      bumpReverse (entriesFor st f) (substitution st f n fu).1 fu := by
  have h := (resolveValue_preserves st f n fu).2.2.2.2
  simp only [substitution, entriesFor, h, alistGet_set_self, substitution_val]
  rfl

theorem resolveValue_bare (st : MacroExpander) (f n fu : String)
    (hm : st.mapping = none) (hg : st.generator = none) :
    resolveValue st f n fu = (fu, st, [Warning.cannotExpand fu]) := by
  simp [resolveValue, hm, hg]

theorem resolveValue_det (st1 st2 : MacroExpander) (f n fu : String)
    (hm : st1.mapping = st2.mapping)
    (hg1 : st1.generator = none) (hg2 : st2.generator = none) :
    (resolveValue st1 f n fu).1 = (resolveValue st2 f n fu).1 := by
  unfold resolveValue
  rw [hm]
  cases st2.mapping.bind (alistGet n) <;> simp [hg1, hg2]

theorem resolveValue_state_nogen (st : MacroExpander) (f n fu : String)
    (hg : st.generator = none) :
    (resolveValue st f n fu).2.1 = st := by
  unfold resolveValue
  cases st.mapping.bind (alistGet n) <;> simp [hg]

theorem bumpReverse_identity (rev : List (String × (Nat × List String))) (full : String)
    (hinv : ∀ e ∈ rev, e.2.2 = [e.1]) :
    (∀ e ∈ bumpReverse rev full full, e.2.2 = [e.1]) ∧
    (∀ k c, (k, (c, [k])) ∈ rev → ∃ c', (k, (c', [k])) ∈ bumpReverse rev full full) ∧
    (∃ c', (full, (c', [full])) ∈ bumpReverse rev full full) := by
  cases hget : alistGet full rev with
  | none =>
    simp only [bumpReverse, hget]
    refine ⟨?_, ?_, ⟨1, ?_⟩⟩
    · intro e he
      rcases List.mem_append.mp he with h1 | h2
      · exact hinv e h1
      · simp only [List.mem_singleton] at h2
        subst h2
        rfl
    · intro k c hk
      exact ⟨c, List.mem_append_left _ hk⟩
    · exact List.mem_append_right _ (List.mem_singleton.mpr rfl)
  | some cv =>
    obtain ⟨cnt, origs⟩ := cv
    have hmem := alistGet_mem hget
    have horig : origs = [full] := hinv _ hmem
    subst horig
    have hset : setAdd full [full] = [full] := by simp [setAdd]
    simp only [bumpReverse, hget, hset]
    refine ⟨?_, ?_, ⟨cnt + 1, self_mem_alistSet _ _ _⟩⟩
    · intro e he
      rcases mem_alistSet he with h1 | h2
      · subst h1; rfl
      · exact hinv e h2
    · intro k c hk
      by_cases hkf : k = full
      · subst hkf; exact ⟨cnt + 1, self_mem_alistSet _ _ _⟩
      · exact ⟨c, mem_alistSet_of_ne hk hkf⟩

/-! Section: Expansion with neither mapping nor generator -/

theorem expandChunks_bare (f : String) : ∀ (cs : List Chunk) (st : MacroExpander),
    st.mapping = none → st.generator = none →
    (∀ e ∈ entriesFor st f, e.2.2 = [e.1]) →
    ((expandChunks st f cs).1.data = renderChunks cs ∧
     (expandChunks st f cs).2.1.mapping = none ∧
     (expandChunks st f cs).2.1.generator = none ∧
     (∀ e ∈ entriesFor (expandChunks st f cs).2.1 f, e.2.2 = [e.1]) ∧
     (∀ k c, (k, (c, [k])) ∈ entriesFor st f →
        ∃ c', (k, (c', [k])) ∈ entriesFor (expandChunks st f cs).2.1 f) ∧
     (∀ full name, Chunk.mac full name ∈ cs →
        ∃ c', (full, (c', [full])) ∈ entriesFor (expandChunks st f cs).2.1 f)) := by
  intro cs
  induction cs with
  | nil =>
    intro st hm hg hinv
    refine ⟨rfl, hm, hg, hinv, fun k c hk => ⟨c, hk⟩, ?_⟩
    intro full name hmem
    cases hmem
  | cons ch rest ih =>
    intro st hm hg hinv
    cases ch with
    | lit c =>
      have h := ih st hm hg hinv
      refine ⟨?_, h.2.1, h.2.2.1, h.2.2.2.1, h.2.2.2.2.1, ?_⟩
      · simp only [expandChunks, renderChunks, String.data_append]
        rw [h.1]
        rfl
      · intro full name hmem
        exact h.2.2.2.2.2 full name (by simpa using hmem)
    | mac full name =>
      have hval : (substitution st f name full).1 = full := by
        rw [substitution_val, resolveValue_bare st f name full hm hg]
      have hfields := substitution_fields st f name full
      have hbump := substitution_entriesFor st f name full
      rw [hval] at hbump
      have hbi := bumpReverse_identity (entriesFor st f) full hinv
      have hinv' : ∀ e ∈ entriesFor (substitution st f name full).2.1 f, e.2.2 = [e.1] := by
        rw [hbump]; exact hbi.1
      have h := ih (substitution st f name full).2.1
        (hfields.2.1.trans hm) (hfields.2.2.1.trans hg) hinv'
      refine ⟨?_, h.2.1, h.2.2.1, h.2.2.2.1, ?_, ?_⟩
      · simp only [expandChunks, renderChunks, String.data_append]
        rw [h.1, hval]
      · intro k c hk
        obtain ⟨c1, hc1⟩ := hbi.2.1 k c hk
        rw [← hbump] at hc1
        exact h.2.2.2.2.1 k c1 hc1
      · intro fu na hmem
        rcases List.mem_cons.mp hmem with h1 | h2
        · obtain ⟨hfu, _⟩ := Chunk.mac.inj h1
          subst hfu
          obtain ⟨c1, hc1⟩ := hbi.2.2
          rw [← hbump] at hc1
          exact h.2.2.2.2.1 fu c1 hc1
        · exact h.2.2.2.2.2 fu na h2

/-! Section: Determinism of expansion without a generator -/

theorem expandChunks_det (f : String) : ∀ (cs : List Chunk) (st1 st2 : MacroExpander),
    st1.mapping = st2.mapping → st1.generator = none → st2.generator = none →
    alistGet f st1.reverse = alistGet f st2.reverse →
    ((expandChunks st1 f cs).1 = (expandChunks st2 f cs).1 ∧
     alistGet f (expandChunks st1 f cs).2.1.reverse =
       alistGet f (expandChunks st2 f cs).2.1.reverse) := by
  intro cs
  induction cs with
  | nil => intro st1 st2 hm hg1 hg2 hrev; exact ⟨rfl, hrev⟩
  | cons ch rest ih =>
    intro st1 st2 hm hg1 hg2 hrev
    cases ch with
    | lit c =>
      have h := ih st1 st2 hm hg1 hg2 hrev
      refine ⟨?_, h.2⟩
      simp only [expandChunks]
      rw [h.1]
    | mac full name =>
      have hval : (substitution st1 f name full).1 = (substitution st2 f name full).1 := by
        rw [substitution_val, substitution_val]
        exact resolveValue_det st1 st2 f name full hm hg1 hg2
      have hst1 : (resolveValue st1 f name full).2.1 = st1 :=
        resolveValue_state_nogen st1 f name full hg1
      have hst2 : (resolveValue st2 f name full).2.1 = st2 :=
        resolveValue_state_nogen st2 f name full hg2
      have hrev1 : (substitution st1 f name full).2.1.reverse =
          alistSet f (bumpReverse (entriesFor st1 f) (substitution st1 f name full).1 full)
            st1.reverse := by
        simp only [substitution, entriesFor, hst1, substitution_val]
      have hrev2 : (substitution st2 f name full).2.1.reverse =
          alistSet f (bumpReverse (entriesFor st2 f) (substitution st2 f name full).1 full)
            st2.reverse := by
        simp only [substitution, entriesFor, hst2, substitution_val]
      have hent : entriesFor st1 f = entriesFor st2 f := by
        simp only [entriesFor, hrev]
      have hget : alistGet f (substitution st1 f name full).2.1.reverse =
          alistGet f (substitution st2 f name full).2.1.reverse := by
        rw [hrev1, hrev2, alistGet_set_self, alistGet_set_self, hent, hval]
      have hmap : (substitution st1 f name full).2.1.mapping =
          (substitution st2 f name full).2.1.mapping := by
        rw [(substitution_fields st1 f name full).2.1,
            (substitution_fields st2 f name full).2.1, hm]
      have hg1' : (substitution st1 f name full).2.1.generator = none :=
        (substitution_fields st1 f name full).2.2.1.trans hg1
      have hg2' : (substitution st2 f name full).2.1.generator = none :=
        (substitution_fields st2 f name full).2.2.1.trans hg2
      have h := ih (substitution st1 f name full).2.1 (substitution st2 f name full).2.1
        hmap hg1' hg2' hget
      refine ⟨?_, h.2⟩
      simp only [expandChunks]
      rw [h.1, hval]

/-! Section: The un-expansion loop -/

theorem sanity_check_mem {entries : List (String × (Nat × List String))}
    {g : String} {cnt : Nat} {origs : List String}
    (hmem : (g, (cnt, origs)) ∈ entries) (hlen : 1 < origs.length) :
    Warning.ambiguous g origs ∈ sanity_check entries := by
  induction entries with
  | nil => cases hmem
  | cons e rest ih =>
    obtain ⟨g', cnt', origs'⟩ := e
    rcases List.mem_cons.mp hmem with h1 | h2
    · injection h1 with hg hrest
      injection hrest with hcnt horig
      subst hg; subst horig
      simp [sanity_check, hlen]
    · by_cases hl : 1 < origs'.length <;>
        simp [sanity_check, hl, ih h2]

theorem popEntries_ok (ug : Option (String → String → String → String)) (f : String) :
    ∀ (entries : List (String × (Nat × List String))) (text : String),
      (∀ e ∈ entries, e.2.2 ≠ []) →
      ∃ t', popEntries ug f text entries =
        Except.ok (t', entries.map (fun e => (e.1, (e.2.1, e.2.2.tail)))) := by
  intro entries
  induction entries with
  | nil => intro text _; exact ⟨text, rfl⟩
  | cons e rest ih =>
    intro text hne
    obtain ⟨g, cnt, origs⟩ := e
    cases origs with
    | nil => exact absurd rfl (hne (g, (cnt, [])) (List.mem_cons_self _ _))
    | cons o os =>
      have hne' : ∀ e ∈ rest, e.2.2 ≠ [] := fun e he => hne e (List.mem_cons_of_mem _ he)
      cases hug : ug with
      | some u =>
        obtain ⟨t', ht'⟩ := ih (String.mk (replaceAllCI g.data (u f g o).data text.data)) hne'
        rw [hug] at ht'
        refine ⟨t', ?_⟩
        simp [popEntries, hug, ht']
      | none =>
        obtain ⟨t', ht'⟩ := ih (String.mk (replaceAll g.data o.data text.data)) hne'
        rw [hug] at ht'
        refine ⟨t', ?_⟩
        simp [popEntries, hug, ht']

theorem popEntries_text_nogen (f : String) :
    ∀ (entries : List (String × (Nat × List String))) (text : String),
      (∀ e ∈ entries, e.2.2 ≠ []) →
      popEntries none f text entries =
        Except.ok
          (entries.foldl
            (fun acc e => String.mk (replaceAll e.1.data e.2.2.headI.data acc.data)) text,
           entries.map (fun e => (e.1, (e.2.1, e.2.2.tail)))) := by
  intro entries
  induction entries with
  | nil => intro text _; rfl
  | cons e rest ih =>
    intro text hne
    obtain ⟨g, cnt, origs⟩ := e
    cases origs with
    | nil => exact absurd rfl (hne (g, (cnt, [])) (List.mem_cons_self _ _))
    | cons o os =>
      have hne' : ∀ e ∈ rest, e.2.2 ≠ [] := fun e he => hne e (List.mem_cons_of_mem _ he)
      have hrec := ih (String.mk (replaceAll g.data o.data text.data)) hne'
      simp [popEntries, hrec, List.headI]

theorem popEntries_error (ug : Option (String → String → String → String)) (f : String)
    {g : String} {cnt : Nat} :
    ∀ (entries : List (String × (Nat × List String))) (text : String),
      (g, (cnt, ([] : List String))) ∈ entries →
      popEntries ug f text entries = Except.error PyError.keyError := by
  intro entries
  induction entries with
  | nil => intro text hmem; cases hmem
  | cons e rest ih =>
    intro text hmem
    obtain ⟨g', cnt', origs'⟩ := e
    cases origs' with
    | nil => rfl
    | cons o os =>
      rcases List.mem_cons.mp hmem with h1 | h2
      · injection h1 with _ hrest
        injection hrest with _ horig
        cases horig
      · cases hug : ug with
        | some u =>
          have hrec := ih (String.mk (replaceAllCI g'.data (u f g' o).data text.data)) h2
          rw [hug] at hrec
          simp [popEntries, hug, hrec]
        | none =>
          have hrec := ih (String.mk (replaceAll g'.data o.data text.data)) h2
          rw [hug] at hrec
          simp [popEntries, hug, hrec]

/-! Section: The claims -/

/-- C1: on a fresh expander with pattern dollar-brace-word-brace, static
mapping `foo -> BAR` and no generator or un-generator, `expand` turns
`select ${foo} from t` into `select BAR from t`, and `un_expand` applied
to that output returns exactly `select ${foo} from t`. -/
theorem c1_expand_unexpand_roundtrip :
    (stdExpander.expand "f" "select ${foo} from t").1 = "select BAR from t" ∧
    ((stdExpander.expand "f" "select ${foo} from t").2.1.un_expand "f"
        (stdExpander.expand "f" "select ${foo} from t").1).2.toOption.map Prod.fst =
      some "select ${foo} from t" := by
  refine ⟨by decide, by decide⟩

/-- C2: evaluation of the code at the failing input.  With a generator and no
static mapping, expanding a text with the two distinct macro names `a` and
`b` substitutes the generator's values for both occurrences, but records
only `a` in `unmapped[fileId]`: the update for the second name evaluates
`set.union` and discards its result, so `b` is never recorded, contrary to
the claim that every generator-resolved name is recorded. -/
theorem c2_generator_branch_unmapped_loss :
    (genExpander.expand "f" "${a} ${b}").1 = "Va Vb" ∧
    alistGet "f" (genExpander.expand "f" "${a} ${b}").2.1.unmapped = some ["a"] ∧
    "b" ∉ (alistGet "f" (genExpander.expand "f" "${a} ${b}").2.1.unmapped).getD [] := by
  refine ⟨by decide, by decide, by decide⟩

/-- C3: evaluation of the code at the failing input.  After two `expand`
calls on the same file, each resolving one distinct macro name through the
generator, `unmapped[fileId]` holds only the first name (the second call's
discarded `set.union` result loses `y`), contrary to the claim that the
set equals all generator-resolved names. -/
theorem c3_unmapped_second_name_lost :
    ((genExpander.expand "f" "${x}").2.1.expand "f" "${y}").1 = "Vy" ∧
    alistGet "f" ((genExpander.expand "f" "${x}").2.1.expand "f" "${y}").2.1.unmapped
      = some ["x"] := by
  refine ⟨by decide, by decide⟩

/-- C4 counterexample: with both the static mapping and the generator absent,
expanding `${a}` leaves the text unchanged but does add an entry to
`reverseIndex[fileId]` — the identity entry mapping the full match to
itself — so the claim that no entry is added is false. -/
theorem c4_identity_entry_recorded :
    (bareExpander.expand "f" "${a}").1 = "${a}" ∧
    alistGet "f" (bareExpander.expand "f" "${a}").2.1.reverse
      = some [("${a}", (1, ["${a}"]))] := by
  refine ⟨by decide, by decide⟩

/-- C4 (amended): when the static mapping and the generator are both absent,
`expand` returns the input text unchanged, and `reverseIndex[fileId]`
receives only identity entries — every recorded entry maps a full matched
text to the singleton set of itself, and every macro occurrence of the
text contributes such an entry. -/
theorem c4_amended_unchanged_with_identity_entries (st : MacroExpander) (f t : String)
    (hp : st.pattern = tokenize) (hm : st.mapping = none) (hg : st.generator = none)
    (hf : alistGet f st.reverse = none) :
    (st.expand f t).1 = t ∧
    (∀ e ∈ entriesFor (st.expand f t).2.1 f, e.2.2 = [e.1]) ∧
    (∀ full name, Chunk.mac full name ∈ tokenize t.data →
      ∃ c, (full, (c, [full])) ∈ entriesFor (st.expand f t).2.1 f) := by
  have hinv : ∀ e ∈ entriesFor st f, e.2.2 = [e.1] := by
    simp [entriesFor, hf]
  have h := expandChunks_bare f (tokenize t.data) st hm hg hinv
  refine ⟨?_, ?_, ?_⟩
  · apply String.ext
    show (expandChunks st f (st.pattern t.data)).1.data = t.data
    rw [hp]
    exact h.1.trans (renderChunks_tokenize t.data)
  · show ∀ e ∈ entriesFor (expandChunks st f (st.pattern t.data)).2.1 f, e.2.2 = [e.1]
    rw [hp]
    exact h.2.2.2.1
  · show ∀ full name, Chunk.mac full name ∈ tokenize t.data →
      ∃ c, (full, (c, [full])) ∈ entriesFor (expandChunks st f (st.pattern t.data)).2.1 f
    rw [hp]
    exact h.2.2.2.2.2

/-- C4 witness: the amended claim instantiated on a fresh bare expander and
the text `${a}`. -/
theorem c4_amended_witness :
    (bareExpander.pattern = tokenize ∧ bareExpander.mapping = none ∧
     bareExpander.generator = none ∧ alistGet "f" bareExpander.reverse = none) ∧
    ((bareExpander.expand "f" "${a}").1 = "${a}" ∧
     (∀ e ∈ entriesFor (bareExpander.expand "f" "${a}").2.1 "f", e.2.2 = [e.1]) ∧
     (∀ full name, Chunk.mac full name ∈ tokenize "${a}".data →
       ∃ c, (full, (c, [full])) ∈ entriesFor (bareExpander.expand "f" "${a}").2.1 "f")) :=
  ⟨⟨rfl, rfl, rfl, rfl⟩,
   c4_amended_unchanged_with_identity_entries bareExpander "f" "${a}" rfl rfl rfl rfl⟩

/-- C5: evaluation of the code at the failing input.  On a router whose two
patterns `*.sql` and `a.*` both match the file `a.sql`, the multi-match
branch evaluates the undefined identifier `loggin`, so `choose_expander`
raises `NameError` instead of warning and returning the last-matching
expander, and `expand` propagates the same exception. -/
theorem c5_ambiguous_route_name_error :
    (chooseHits demoRouter "a.sql").length = 2 ∧
    choose_expander demoRouter "a.sql" = Except.error (PyError.nameError "loggin") ∧
    (demoRouter.expand "a.sql" "select 1").2 = Except.error (PyError.nameError "loggin") := by
  refine ⟨rfl, rfl, rfl⟩

/-- C6 counterexample: with no un-generator configured, a tracked generated
value `BAR` whose recorded original is `${foo}` is NOT replaced at its
case-insensitive occurrence `bar` — `un_expand` returns the text
unchanged — although a case-insensitive replacement (shown alongside)
would have replaced it; so the claim that matching is case-insensitive
including when no un-generator is configured is false. -/
theorem c6_case_sensitive_counterexample :
    ((stdExpander.expand "f" "${foo}").2.1.un_expand "f"
        "select bar from t").2.toOption.map Prod.fst = some "select bar from t" ∧
    String.mk (replaceAllCI "BAR".data "${foo}".data "select bar from t".data)
      = "select ${foo} from t" := by
  refine ⟨by decide, by decide⟩

/-- C6 (amended): for a file whose reverse index holds one tracked generated
value, `un_expand` replaces its case-insensitive literal occurrences with
the un-generator's result when an un-generator is configured, but with no
un-generator it replaces only exact (case-sensitive) literal occurrences
with the consumed original. -/
theorem c6_amended_branch_case_sensitivity (st : MacroExpander) (f text g : String)
    (cnt : Nat) (o : String) (os : List String)
    (h : alistGet f st.reverse = some [(g, (cnt, o :: os))]) :
    (∀ u, st.un_generator = some u →
      (st.un_expand f text).2.toOption.map Prod.fst =
        some (String.mk (replaceAllCI g.data (u f g o).data text.data))) ∧
    (st.un_generator = none →
      (st.un_expand f text).2.toOption.map Prod.fst =
        some (String.mk (replaceAll g.data o.data text.data))) := by
  constructor
  · intro u hu
    simp [MacroExpander.un_expand, h, popEntries, hu]
    exact ⟨_, rfl⟩
  · intro hu
    simp [MacroExpander.un_expand, h, popEntries, hu]
    exact ⟨_, rfl⟩

/-- C6 witness: the amended claim instantiated on an expander carrying an
un-generator and one tracked expansion of `BAR` from `${foo}`. -/
theorem c6_amended_witness :
    (alistGet "f" ugExpander.reverse = some [("BAR", (1, ["${foo}"]))]) ∧
    ((∀ u, ugExpander.un_generator = some u →
       (ugExpander.un_expand "f" "select bar from t").2.toOption.map Prod.fst =
         some (String.mk (replaceAllCI "BAR".data (u "f" "BAR" "${foo}").data
           "select bar from t".data))) ∧
     (ugExpander.un_generator = none →
       (ugExpander.un_expand "f" "select bar from t").2.toOption.map Prod.fst =
         some (String.mk (replaceAll "BAR".data "${foo}".data
           "select bar from t".data)))) :=
  ⟨by decide,
   c6_amended_branch_case_sensitivity ugExpander "f" "select bar from t" "BAR" 1
     "${foo}" [] (by decide)⟩

/-- C7: on a first `un_expand` call (every originals set still non-empty) for
a tracked file, an ambiguity warning is emitted for every generated value
with more than one recorded original, the call returns without raising,
and the returned text arises from the input by replacing, entry by entry,
every occurrence of each tracked generated value with its first recorded
original; moreover, in the ambiguous single-value scenario, when the
generated value and original are non-empty and share no characters, the
generated value no longer occurs in the returned text (it is never left
in place). -/
theorem c7_ambiguity_warning_and_substitution (st : MacroExpander) (f text : String)
    (entries : List (String × (Nat × List String)))
    (h : alistGet f st.reverse = some entries)
    (hne : ∀ e ∈ entries, e.2.2 ≠ [])
    (hug : st.un_generator = none) :
    (∀ g cnt origs, (g, (cnt, origs)) ∈ entries → 1 < origs.length →
      Warning.ambiguous g origs ∈ (st.un_expand f text).1) ∧
    (∃ out st', (st.un_expand f text).2 = Except.ok (out, st')) ∧
    ((st.un_expand f text).2.toOption.map Prod.fst =
      some (entries.foldl
        (fun acc e => String.mk (replaceAll e.1.data e.2.2.headI.data acc.data)) text)) ∧
    (∀ g cnt o os, entries = [(g, (cnt, o :: os))] → os ≠ [] →
      g.data ≠ [] → o.data ≠ [] → (∀ c ∈ o.data, c ∉ g.data) →
      (st.un_expand f text).2.toOption.map Prod.fst =
        some (String.mk (replaceAll g.data o.data text.data)) ∧
      occurs g.data (replaceAll g.data o.data text.data) = false) := by
  obtain ⟨t', ht'⟩ := popEntries_ok st.un_generator f entries text hne
  refine ⟨?_, ?_, ?_, ?_⟩
  · intro g cnt origs hmem hlen
    simp only [MacroExpander.un_expand, h, ht']
    exact sanity_check_mem hmem hlen
  · refine ⟨t',
      { st with reverse :=
          alistSet f (entries.map (fun e => (e.1, (e.2.1, e.2.2.tail)))) st.reverse }, ?_⟩
    simp [MacroExpander.un_expand, h, ht']
  · have htext := popEntries_text_nogen f entries text hne
    rw [← hug] at htext
    simp [MacroExpander.un_expand, h, htext]
    exact ⟨_, rfl⟩
  · intro g cnt o os hent hos hgne hone hd
    subst hent
    refine ⟨?_, occurs_replaceAll g.data o.data text.data hgne hone hd⟩
    simp [MacroExpander.un_expand, h, popEntries, hug]
    exact ⟨_, rfl⟩

/-- C7 witness: the theorem instantiated on the state produced by expanding
`${a} ${b}` under the mapping sending both `a` and `b` to `BAR`, then
un-expanding the expanded text `BAR BAR`. -/
theorem c7_witness :
    (alistGet "f" (aliasExpander.expand "f" "${a} ${b}").2.1.reverse
       = some [("BAR", (2, ["${a}", "${b}"]))] ∧
     (∀ e ∈ [("BAR", (2, ["${a}", "${b}"]))], e.2.2 ≠ ([] : List String)) ∧
     (aliasExpander.expand "f" "${a} ${b}").2.1.un_generator = none) ∧
    ((∀ g cnt origs, (g, (cnt, origs)) ∈ [("BAR", (2, ["${a}", "${b}"]))] →
        1 < origs.length →
        Warning.ambiguous g origs ∈
          ((aliasExpander.expand "f" "${a} ${b}").2.1.un_expand "f" "BAR BAR").1) ∧
     (∃ out st',
        ((aliasExpander.expand "f" "${a} ${b}").2.1.un_expand "f" "BAR BAR").2 =
          Except.ok (out, st')) ∧
     (((aliasExpander.expand "f" "${a} ${b}").2.1.un_expand "f" "BAR BAR").2.toOption.map
         Prod.fst =
       some ([("BAR", (2, ["${a}", "${b}"]))].foldl
         (fun acc e => String.mk (replaceAll e.1.data e.2.2.headI.data acc.data))
         "BAR BAR")) ∧
     (∀ g cnt o os, [("BAR", (2, ["${a}", "${b}"]))] = [(g, (cnt, o :: os))] → os ≠ [] →
        g.data ≠ [] → o.data ≠ [] → (∀ c ∈ o.data, c ∉ g.data) →
        ((aliasExpander.expand "f" "${a} ${b}").2.1.un_expand "f" "BAR BAR").2.toOption.map
            Prod.fst = some (String.mk (replaceAll g.data o.data "BAR BAR".data)) ∧
        occurs g.data (replaceAll g.data o.data "BAR BAR".data) = false)) :=
  ⟨⟨by decide, by decide, rfl⟩,
   c7_ambiguity_warning_and_substitution (aliasExpander.expand "f" "${a} ${b}").2.1
     "f" "BAR BAR" [("BAR", (2, ["${a}", "${b}"]))] (by decide) (by decide) rfl⟩

/-- C8: for a file name matching no registered glob pattern, the router's
`expand` and `un_expand` return the text unchanged with the router state
untouched and no warning or exception, and for a file with no reverse
index entry, the expander's `un_expand` likewise returns the text
unchanged with the state untouched. -/
theorem c8_no_route_no_entry_noop (r : MacroExpanderRouter) (st : MacroExpander)
    (f t : String)
    (hr : ∀ pe ∈ r.all_macros, fnmatch pe.1.data f.data = false)
    (hs : alistGet f st.reverse = none) :
    r.expand f t = ([], Except.ok (t, r)) ∧
    r.un_expand f t = ([], Except.ok (t, r)) ∧
    st.un_expand f t = ([], Except.ok (t, st)) := by
  have hhits : chooseHits r f = [] := by
    simp only [chooseHits]
    rw [List.filter_eq_nil_iff]
    intro a ha
    simp [hr a ha]
  refine ⟨?_, ?_, ?_⟩
  · simp [MacroExpanderRouter.expand, hhits]
  · simp [MacroExpanderRouter.un_expand, hhits]
  · simp [MacroExpander.un_expand, hs]

/-- C8 witness: a router holding only the pattern `*.sql` and a fresh
expander, applied to the file `readme.md`. -/
theorem c8_witness :
    ((∀ pe ∈ soloRouter.all_macros, fnmatch pe.1.data "readme.md".data = false) ∧
     alistGet "readme.md" bareExpander.reverse = none) ∧
    (soloRouter.expand "readme.md" "hello" = ([], Except.ok ("hello", soloRouter)) ∧
     soloRouter.un_expand "readme.md" "hello" = ([], Except.ok ("hello", soloRouter)) ∧
     bareExpander.un_expand "readme.md" "hello" =
       ([], Except.ok ("hello", bareExpander))) :=
  ⟨⟨by decide, rfl⟩,
   c8_no_route_no_entry_noop soloRouter bareExpander "readme.md" "hello"
     (by decide) rfl⟩

/-- C9: with the same pattern, the same static mapping and no generator,
`expand` on a file identifier fresh in both states yields the same output
text and the same reverse-index slice for that file, whatever else the two
states contain — the output is a function of the mapping and the text
alone. -/
theorem c9_expand_deterministic (st1 st2 : MacroExpander) (f t : String)
    (hp : st1.pattern = st2.pattern) (hm : st1.mapping = st2.mapping)
    (hg1 : st1.generator = none) (hg2 : st2.generator = none)
    (hf1 : alistGet f st1.reverse = none) (hf2 : alistGet f st2.reverse = none) :
    (st1.expand f t).1 = (st2.expand f t).1 ∧
    alistGet f (st1.expand f t).2.1.reverse =
      alistGet f (st2.expand f t).2.1.reverse := by
  have h := expandChunks_det f (st2.pattern t.data) st1 st2 hm hg1 hg2
    (hf1.trans hf2.symm)
  show (expandChunks st1 f (st1.pattern t.data)).1 =
      (expandChunks st2 f (st2.pattern t.data)).1 ∧
    alistGet f (expandChunks st1 f (st1.pattern t.data)).2.1.reverse =
      alistGet f (expandChunks st2 f (st2.pattern t.data)).2.1.reverse
  rw [hp]
  exact h

/-- C9 witness: the theorem instantiated on a fresh expander and on the same
expander after expanding a different file, both fresh for the file `f`. -/
theorem c9_witness :
    (stdExpander.pattern = (stdExpander.expand "g" "${foo}").2.1.pattern ∧
     stdExpander.mapping = (stdExpander.expand "g" "${foo}").2.1.mapping ∧
     stdExpander.generator = none ∧
     (stdExpander.expand "g" "${foo}").2.1.generator = none ∧
     alistGet "f" stdExpander.reverse = none ∧
     alistGet "f" (stdExpander.expand "g" "${foo}").2.1.reverse = none) ∧
    ((stdExpander.expand "f" "use ${foo} now").1 =
       ((stdExpander.expand "g" "${foo}").2.1.expand "f" "use ${foo} now").1 ∧
     alistGet "f" (stdExpander.expand "f" "use ${foo} now").2.1.reverse =
       alistGet "f"
         ((stdExpander.expand "g" "${foo}").2.1.expand "f" "use ${foo} now").2.1.reverse) :=
  ⟨⟨rfl, by decide, rfl, rfl, rfl, by decide⟩,
   c9_expand_deterministic stdExpander (stdExpander.expand "g" "${foo}").2.1
     "f" "use ${foo} now" rfl (by decide) rfl rfl rfl (by decide)⟩

/-- C10: `un_expand` consumes its bookkeeping: a successful call pops one
original from every tracked generated value's originals set, so when some
value had exactly one recorded original, a second `un_expand` call on the
same file raises `KeyError` (pop from an empty set) instead of returning
text. -/
theorem c10_unexpand_consumes_originals (st : MacroExpander) (f t1 t2 : String)
    (entries : List (String × (Nat × List String)))
    (g : String) (cnt : Nat) (o : String)
    (h : alistGet f st.reverse = some entries)
    (hne : ∀ e ∈ entries, e.2.2 ≠ [])
    (hmem : (g, (cnt, [o])) ∈ entries) :
    ∃ out st', (st.un_expand f t1).2 = Except.ok (out, st') ∧
      alistGet f st'.reverse =
        some (entries.map (fun e => (e.1, (e.2.1, e.2.2.tail)))) ∧
      (st'.un_expand f t2).2 = Except.error PyError.keyError := by
  obtain ⟨t', ht'⟩ := popEntries_ok st.un_generator f entries t1 hne
  refine ⟨t',
    { st with reverse :=
        alistSet f (entries.map (fun e => (e.1, (e.2.1, e.2.2.tail)))) st.reverse },
    ?_, ?_, ?_⟩
  · simp [MacroExpander.un_expand, h, ht']
  · simp [alistGet_set_self]
  · have hmem' : (g, (cnt, ([] : List String))) ∈
        entries.map (fun e => (e.1, (e.2.1, e.2.2.tail))) :=
      List.mem_map.mpr ⟨(g, (cnt, [o])), hmem, rfl⟩
    have hK := popEntries_error st.un_generator f
      (entries.map (fun e => (e.1, (e.2.1, e.2.2.tail)))) t2 hmem'
    simp [MacroExpander.un_expand, alistGet_set_self, hK]

/-- C10 witness: the theorem instantiated on the state produced by the C1
round trip, whose only tracked value `BAR` has exactly one original. -/
theorem c10_witness :
    (alistGet "f" (stdExpander.expand "f" "select ${foo} from t").2.1.reverse
       = some [("BAR", (1, ["${foo}"]))] ∧
     (∀ e ∈ [("BAR", (1, ["${foo}"]))], e.2.2 ≠ ([] : List String)) ∧
     ("BAR", ((1 : Nat), ["${foo}"])) ∈ [("BAR", (1, ["${foo}"]))]) ∧
    (∃ out st',
      ((stdExpander.expand "f" "select ${foo} from t").2.1.un_expand "f"
          "select BAR from t").2 = Except.ok (out, st') ∧
      alistGet "f" st'.reverse =
        some ([("BAR", (1, ["${foo}"]))].map (fun e => (e.1, (e.2.1, e.2.2.tail)))) ∧
      (st'.un_expand "f" "select BAR from t").2 = Except.error PyError.keyError) :=
  ⟨⟨by decide, by decide, by decide⟩,
   c10_unexpand_consumes_originals (stdExpander.expand "f" "select ${foo} from t").2.1
     "f" "select BAR from t" "select BAR from t" [("BAR", (1, ["${foo}"]))]
     "BAR" 1 "${foo}" (by decide) (by decide) (by decide)⟩

end MacroModel
